import Mathlib

/-!
# Verification of `git2-rs` branch handling (`src/branch.rs`)

A shallow embedding of the `Branch` / `Branches` module of the `git2`
Rust bindings.  References are abstract (a type parameter `ρ`); the
result of the store's `git_branch_name` call for a given reference is
modelled by an oracle `nameOf : ρ → NameResult`, matching the source's
`name()` which consults the store through the wrapped reference.
Errors carried by `Result::Err` are modelled as abstract `Nat` codes.
-/

namespace Git2

/-- Result of `Branch::name()`: `Err e`, `Ok(None)` (present but not
valid UTF-8), or `Ok(Some bytes))` (the decoded name, byte for byte). -/
abbrev NameResult := Except Nat (Option (List Nat))

/-- Rust's `Ord` on integers (here: name bytes as `Nat`). -/
def byteCmp (a b : Nat) : Ordering :=
  if a < b then .lt else if b < a then .gt else .eq

/-- Rust's lexicographic byte-slice comparison, used by `str::cmp`
(`lname.cmp(rname)` in `Branch::cmp`): element-wise, then by length. -/
def bytesCmp : List Nat → List Nat → Ordering
  | [], [] => .eq
  | [], _ :: _ => .lt
  | _ :: _, [] => .gt
  | a :: l, b :: r =>
    match byteCmp a b with
    | .eq => bytesCmp l r
    | o => o

/-- Source: `pub struct Branch<'repo> { inner: Reference<'repo> }` -/
structure Branch (ρ : Type) where
  inner : ρ
deriving DecidableEq

/-- Source: `Branch::wrap(reference: Reference) -> Branch` -/
def Branch.wrap {ρ : Type} (reference : ρ) : Branch ρ := { inner := reference }

/-- Source: `Branch::get(&self) -> &Reference` -/
def Branch.get {ρ : Type} (b : Branch ρ) : ρ := b.inner

/-- Source: `Branch::into_reference(self) -> Reference` -/
def Branch.into_reference {ρ : Type} (b : Branch ρ) : ρ := b.inner

/-- Source: `impl Ord for Branch::cmp`: the three-rule cascade from the source.
`nameOf r` is the store's answer to `name()` on reference `r`;
`rc` is the underlying `Reference` comparison (`self.get().cmp(rhs.get())`). -/
def Branch.cmp {ρ : Type} (nameOf : ρ → NameResult) (rc : ρ → ρ → Ordering)
    (a b : Branch ρ) : Ordering :=
  match nameOf a.get, nameOf b.get with
  | .ok (some lname), .ok (some rname) => bytesCmp lname rname
  | .ok (some _), .ok none => .lt
  | .ok (some _), .error _ => .lt
  | .ok none, .ok (some _) => .gt
  | .error _, .ok (some _) => .gt
  | _, _ => rc a.get b.get

/-- Source: `impl PartialEq for Branch::eq`: `self.cmp(rhs) == Ordering::Equal`. -/
def Branch.beq {ρ : Type} (nameOf : ρ → NameResult) (rc : ρ → ρ → Ordering)
    (a b : Branch ρ) : Bool :=
  Branch.cmp nameOf rc a b == Ordering.eq

/-- Source: `impl PartialOrd for Branch::partial_cmp`: `Some(self.cmp(rhs))`. -/
def Branch.partial_cmp {ρ : Type} (nameOf : ρ → NameResult)
    (rc : ρ → ρ → Ordering) (a b : Branch ρ) : Option Ordering :=
  some (Branch.cmp nameOf rc a b)

/-- Source: `Branch::name()`:
`self.name_bytes().map(|s| str::from_utf8(s).ok())`.
`nb` is the outcome of `name_bytes()`; `str::from_utf8` is the standard
library's UTF-8 validation, which on success views the same bytes as a
string, abstracted here as the validity predicate `validUtf8`. -/
def Branch.name (validUtf8 : List Nat → Bool) (nb : Except Nat (List Nat)) :
    Except Nat (Option (List Nat)) :=
  match nb with
  | .error e => .error e
  | .ok s => .ok (if validUtf8 s then some s else none)

/-- Errors surfaced by the branch operations modelled here. -/
inductive GitError where
  /-- Modelled from the spec: the `From<NulError>` conversion applied by
  `try!(CString::new(..))` (defined outside `src/branch.rs`) yields the
  `InvalidName` error class when the string holds an embedded null byte. -/
  | invalidName
  /-- An error reported by the underlying store. -/
  | store (code : Nat)
deriving DecidableEq

/-- Source: `CString::new(s)` (standard library): fails iff `s` contains an
embedded null byte, composed here with the repository's error
conversion so the failure surfaces as `GitError.invalidName`. -/
def cstringNew (s : List Nat) : Except GitError (List Nat) :=
  if 0 ∈ s then .error .invalidName else .ok s

/-- Modelled from the spec: `::opt_cstr` (defined outside
`src/branch.rs`) maps `None` to a null pointer (`Ok none`) and
`Some(s)` through `CString::new`. -/
def opt_cstr (o : Option (List Nat)) : Except GitError (Option (List Nat)) :=
  match o with
  | none => .ok none
  | some s => (cstringNew s).map some

/-- Source: `Branch::rename(new_branch_name, force)`.  `storeMove` is the
collaborator call `git_branch_move`; the second component of the result
counts how many store calls the operation performed. -/
def Branch.rename {ρ : Type}
    (storeMove : List Nat → Bool → Except GitError ρ)
    (new_branch_name : List Nat) (force : Bool) :
    Except GitError (Branch ρ) × Nat :=
  match cstringNew new_branch_name with
  | .error e => (.error e, 0)
  | .ok cs =>
    match storeMove cs force with
    | .error e => (.error e, 1)
    | .ok ret => (.ok (Branch.wrap ret), 1)

/-- Source: `Branch::set_upstream(upstream_name)`.  `storeSet` is the
collaborator call `git_branch_set_upstream`; the second component of
the result counts how many store calls the operation performed. -/
def Branch.set_upstream
    (storeSet : Option (List Nat) → Except GitError Unit)
    (upstream_name : Option (List Nat)) :
    Except GitError Unit × Nat :=
  match opt_cstr upstream_name with
  | .error e => (.error e, 0)
  | .ok cs =>
    match storeSet cs with
    | .error e => (.error e, 1)
    | .ok _ => (.ok (), 1)

/-- Source: `Branch::is_head()`:
`raw::git_branch_is_head(..) == 1`, where `q` is the integer returned
by the collaborator query (1 means "is HEAD"; 0 means it is not; a
negative value is an error code). -/
def Branch.is_head (q : Int) : Bool :=
  q == 1

/-- Source: `raw::GIT_BRANCH_LOCAL` -/
def GIT_BRANCH_LOCAL : Nat := 1

/-- Source: `raw::GIT_BRANCH_REMOTE` -/
def GIT_BRANCH_REMOTE : Nat := 2

/-- The two-valued classification tag for iterator entries. -/
inductive BranchType where
  | local
  | remote
deriving DecidableEq

/-- Modelled from the spec: the outcome of one `advance-iterator` store
call (`raw::git_branch_next` behind the `try_call_iter!` macro, which
is defined outside `src/branch.rs`): a valid entry carrying a reference
and a raw kind tag, the end-of-sequence signal, or a store failure. -/
inductive StoreNext (ρ : Type) where
  | entry (r : ρ) (tag : Nat)
  | over
  | failure (e : Nat)
deriving DecidableEq

/-- Observable outcome of one `Branches::next()` call: yield
`Some(Ok((Branch, BranchType)))`, terminate (`None`), yield
`Some(Err(e))`, or abort via `panic!`. -/
inductive NextOutcome (ρ : Type) where
  | yield (b : Branch ρ) (t : BranchType)
  | done
  | fail (e : Nat)
  | panicked
deriving DecidableEq

/-- Source: `impl Iterator for Branches::next`: `try_call_iter!` turns the
store's end signal into `None` and a store failure into `Some(Err(e))`
(modelled from the spec for the macro part); a successful advance maps
the kind tag through the `match` on `GIT_BRANCH_LOCAL` /
`GIT_BRANCH_REMOTE`, panicking on any other tag, and wraps the
returned reference with `Branch::wrap`. -/
def branchesNext {ρ : Type} (resp : StoreNext ρ) : NextOutcome ρ :=
  match resp with
  | .over => .done
  | .failure e => .fail e
  | .entry r tag =>
    if tag = GIT_BRANCH_LOCAL then .yield (Branch.wrap r) .local
    else if tag = GIT_BRANCH_REMOTE then .yield (Branch.wrap r) .remote
    else .panicked

/-- A call the `Branches` value makes on its store collaborator. -/
inductive BrCall where
  /-- one `advance-iterator` (`git_branch_next`) call -/
  | advance
  /-- one `release-iterator` (`git_branch_iterator_free`) call -/
  | release
deriving DecidableEq

/-- Store calls made by one `Branches::next()` call: exactly one
advance (`git_branch_next`), never a release. -/
def nextStepCalls : List BrCall := [.advance]

/-- Store calls made by `impl Drop for Branches::drop`: exactly one
release (`git_branch_iterator_free`). -/
def dropCalls : List BrCall := [.release]

/-- The full store-call trace of one `Branches` value's lifetime:
`n` calls to `next()` (however each one ended), then the single `drop`
the language runs when the value goes out of scope. -/
def branchesLifetimeCalls (n : Nat) : List BrCall :=
  (List.replicate n nextStepCalls).flatten ++ dropCalls

/-! ## Helper lemmas on the byte-lexicographic comparison -/

lemma byteCmp_refl (a : Nat) : byteCmp a a = .eq := by
  simp [byteCmp]

lemma bytesCmp_cons (a b : Nat) (l r : List Nat) :
    bytesCmp (a :: l) (b :: r) =
      if a < b then .lt else if b < a then .gt else bytesCmp l r := by
  simp only [bytesCmp, byteCmp]
  rcases Nat.lt_trichotomy a b with h | h | h
  · simp [h, Nat.lt_asymm h]
  · simp [h]
  · simp [h, Nat.lt_asymm h]

lemma bytesCmp_refl (l : List Nat) : bytesCmp l l = .eq := by
  induction l with
  | nil => rfl
  | cons a l ih => simp [bytesCmp_cons, ih]

lemma bytesCmp_swap (l r : List Nat) : bytesCmp l r = (bytesCmp r l).swap := by
  induction l generalizing r with
  | nil => cases r <;> rfl
  | cons a l ih =>
    cases r with
    | nil => rfl
    | cons b r =>
      rw [bytesCmp_cons, bytesCmp_cons]
      rcases Nat.lt_trichotomy a b with h | h | h
      · simp [h, Nat.lt_asymm h, Ordering.swap]
      · simp [h, ih]
      · simp [h, Nat.lt_asymm h, Ordering.swap]

lemma bytesCmp_lt_trans {a b c : List Nat} (h₁ : bytesCmp a b = .lt)
    (h₂ : bytesCmp b c = .lt) : bytesCmp a c = .lt := by
  induction a generalizing b c with
  | nil =>
    cases b with
    | nil => simp [bytesCmp] at h₁
    | cons y ys =>
      cases c with
      | nil => simp [bytesCmp] at h₂
      | cons z zs => rfl
  | cons x xs ih =>
    cases b with
    | nil => simp [bytesCmp] at h₁
    | cons y ys =>
      cases c with
      | nil => simp [bytesCmp] at h₂
      | cons z zs =>
        rw [bytesCmp_cons] at h₁ h₂ ⊢
        rcases Nat.lt_trichotomy x y with h | h | h
        · rcases Nat.lt_trichotomy y z with g | g | g
          · simp [Nat.lt_trans h g]
          · subst g
            simp [h]
          · rw [if_neg (Nat.lt_asymm g), if_pos g] at h₂
            exact absurd h₂ (by simp)
        · subst h
          simp only [Nat.lt_irrefl, if_false] at h₁
          rcases Nat.lt_trichotomy x z with g | g | g
          · simp [g]
          · subst g
            simp only [Nat.lt_irrefl, if_false] at h₂ ⊢
            exact ih h₁ h₂
          · rw [if_neg (Nat.lt_asymm g), if_pos g] at h₂
            exact absurd h₂ (by simp)
        · rw [if_neg (Nat.lt_asymm h), if_pos h] at h₁
          exact absurd h₁ (by simp)

/-! ## Claim theorems -/

/-- C1: `Branch::cmp` follows the three-rule cascade: two decodable
names compare byte-lexicographically; a side whose `name()` is
`Ok(Some(_))` sorts before (`Less` than) a side answering `Ok(None)`
or `Err`; in every remaining combination the result is the underlying
`Reference` comparison. -/
theorem branch_cmp_cascade {ρ : Type} (nameOf : ρ → NameResult)
    (rc : ρ → ρ → Ordering) (a b : Branch ρ) :
    (∀ l r, nameOf a.get = .ok (some l) → nameOf b.get = .ok (some r) →
      Branch.cmp nameOf rc a b = bytesCmp l r) ∧
    (∀ l, nameOf a.get = .ok (some l) →
      (nameOf b.get = .ok none ∨ ∃ e, nameOf b.get = .error e) →
      Branch.cmp nameOf rc a b = .lt) ∧
    (∀ r, nameOf b.get = .ok (some r) →
      (nameOf a.get = .ok none ∨ ∃ e, nameOf a.get = .error e) →
      Branch.cmp nameOf rc a b = .gt) ∧
    ((∀ l, nameOf a.get ≠ .ok (some l)) → (∀ r, nameOf b.get ≠ .ok (some r)) →
      Branch.cmp nameOf rc a b = rc a.get b.get) := by
  refine ⟨?_, ?_, ?_, ?_⟩
  · intro l r hl hr
    simp [Branch.cmp, hl, hr]
  · rintro l hl (hr | ⟨e, hr⟩) <;> simp [Branch.cmp, hl, hr]
  · rintro r hr (hl | ⟨e, hl⟩) <;> simp [Branch.cmp, hl, hr]
  · intro hl hr
    rcases ha : nameOf a.get with e | oa
    · rcases hb : nameOf b.get with f | ob
      · simp [Branch.cmp, ha, hb]
      · cases ob with
        | none => simp [Branch.cmp, ha, hb]
        | some r => exact absurd hb (hr r)
    · cases oa with
      | some l => exact absurd ha (hl l)
      | none =>
        rcases hb : nameOf b.get with f | ob
        · simp [Branch.cmp, ha, hb]
        · cases ob with
          | none => simp [Branch.cmp, ha, hb]
          | some r => exact absurd hb (hr r)

/-- Witness for C1: with a name oracle that gives reference 0 the name
"foo" and reference 1 no decodable name, the named branch compares
`Less`. -/
theorem branch_cmp_cascade_witness :
    Branch.cmp (fun n => if n = 0 then Except.ok (some [102, 111, 111]) else Except.ok none)
      (fun _ _ => Ordering.eq) (Branch.wrap 0) (Branch.wrap 1) = Ordering.lt :=
  (branch_cmp_cascade _ _ _ _).2.1 [102, 111, 111] rfl (Or.inl rfl)

/-- C2: `Branch`'s `==` holds exactly when `cmp` yields `Equal`; in
particular two branches with the same resolved name are `==`-equal
irrespective of their underlying handles. -/
theorem branch_eq_iff_cmp_eq {ρ : Type} (nameOf : ρ → NameResult)
    (rc : ρ → ρ → Ordering) (a b : Branch ρ) :
    (Branch.beq nameOf rc a b = true ↔ Branch.cmp nameOf rc a b = Ordering.eq) ∧
    (∀ n, nameOf a.get = .ok (some n) → nameOf b.get = .ok (some n) →
      Branch.beq nameOf rc a b = true) := by
  constructor
  · unfold Branch.beq
    cases Branch.cmp nameOf rc a b <;> decide
  · intro n ha hb
    simp only [Branch.beq, Branch.cmp, ha, hb, bytesCmp_refl n]
    rfl

/-- Witness for C2: two branches over distinct handles 0 and 1 whose
names both resolve to the byte string "f" compare equal, even though
the underlying reference comparison never answers `Equal`. -/
theorem branch_eq_iff_cmp_eq_witness :
    (Branch.wrap 0 : Branch Nat) ≠ Branch.wrap 1 ∧
    Branch.beq (fun _ => Except.ok (some [102])) (fun _ _ => Ordering.lt)
      (Branch.wrap 0) (Branch.wrap 1) = true :=
  ⟨by decide, (branch_eq_iff_cmp_eq _ _ _ _).2 [102] rfl rfl⟩

/-- C4: `Branch::name()` is exactly the UTF-8 view of `name_bytes()`:
errors pass through, valid UTF-8 bytes become `Ok(Some(..))`, invalid
bytes become `Ok(None)`, and an undecodable name is never reported as
an error. -/
theorem branch_name_utf8_view (validUtf8 : List Nat → Bool)
    (nb : Except Nat (List Nat)) :
    (∀ e, nb = .error e → Branch.name validUtf8 nb = .error e) ∧
    (∀ s, nb = .ok s → validUtf8 s = true →
      Branch.name validUtf8 nb = .ok (some s)) ∧
    (∀ s, nb = .ok s → validUtf8 s = false →
      Branch.name validUtf8 nb = .ok none) ∧
    (∀ s, nb = .ok s → ∀ e, Branch.name validUtf8 nb ≠ .error e) := by
  refine ⟨?_, ?_, ?_, ?_⟩
  · intro e h
    subst h
    simp [Branch.name]
  · intro s h hv
    subst h
    simp [Branch.name, hv]
  · intro s h hv
    subst h
    simp [Branch.name, hv]
  · intro s h e
    subst h
    simp [Branch.name]

/-- Witness for C4: with a validity test accepting exactly length-1
byte strings, the (non-UTF-8 in real life, but accepted here) byte 200
decodes to `Ok(Some([200]))`. -/
theorem branch_name_utf8_view_witness :
    Branch.name (fun s => s.length == 1) (Except.ok [200]) = Except.ok (some [200]) :=
  (branch_name_utf8_view _ _).2.1 [200] rfl rfl

/-- C5: a name holding an embedded null byte makes `rename` and
`set_upstream(Some(..))` fail with `InvalidName` before any store
call: the store-call count of the operation is 0. -/
theorem rename_set_upstream_null_byte {ρ : Type}
    (storeMove : List Nat → Bool → Except GitError ρ)
    (storeSet : Option (List Nat) → Except GitError Unit)
    (nm : List Nat) (force : Bool) (h : 0 ∈ nm) :
    Branch.rename storeMove nm force = (.error .invalidName, 0) ∧
    Branch.set_upstream storeSet (some nm) = (.error .invalidName, 0) := by
  constructor
  · simp [Branch.rename, cstringNew, h]
  · simp [Branch.set_upstream, opt_cstr, cstringNew, h, Except.map]

/-- Witness for C5: the name `[97, 0]` ("a\x00") is rejected with
`InvalidName` and zero store calls by both operations. -/
theorem rename_set_upstream_null_byte_witness :
    Branch.rename (fun s _ => Except.ok s.length) [97, 0] true
      = (Except.error GitError.invalidName, 0) ∧
    Branch.set_upstream (fun _ => Except.ok ()) (some [97, 0])
      = (Except.error GitError.invalidName, 0) :=
  rename_set_upstream_null_byte (fun s _ => Except.ok s.length)
    (fun _ => Except.ok ()) [97, 0] true (by decide)

/-- C3: with a fixed (deterministic) name oracle and an underlying
`Reference` comparison that is a total order (reflexive-equal,
antisymmetric under `swap`, transitive), `Branch::cmp` is a total
order: `cmp a a = Equal`, `cmp a b` is the reverse of `cmp b a`,
`cmp` is transitive, `partial_cmp` always answers `Some(cmp ..)`, and
branches named "foo" and "bar" compare `Greater` / `Less`. -/
theorem branch_cmp_total_order {ρ : Type} (nameOf : ρ → NameResult)
    (rc : ρ → ρ → Ordering)
    (hrefl : ∀ x, rc x x = .eq)
    (hswap : ∀ x y, rc x y = (rc y x).swap)
    (htrans : ∀ x y z, rc x y = .lt → rc y z = .lt → rc x z = .lt) :
    (∀ a : Branch ρ, Branch.cmp nameOf rc a a = .eq) ∧
    (∀ a b : Branch ρ,
      Branch.cmp nameOf rc a b = (Branch.cmp nameOf rc b a).swap) ∧
    (∀ a b c : Branch ρ, Branch.cmp nameOf rc a b = .lt →
      Branch.cmp nameOf rc b c = .lt → Branch.cmp nameOf rc a c = .lt) ∧
    (∀ a b : Branch ρ,
      Branch.partial_cmp nameOf rc a b = some (Branch.cmp nameOf rc a b)) ∧
    (∀ a b : Branch ρ, nameOf a.get = .ok (some [102, 111, 111]) →
      nameOf b.get = .ok (some [98, 97, 114]) →
      Branch.cmp nameOf rc a b = .gt ∧ Branch.cmp nameOf rc b a = .lt ∧
      Branch.cmp nameOf rc a a = .eq) := by
  refine ⟨?_, ?_, ?_, ?_, ?_⟩
  · intro a
    rcases h : nameOf a.get with e | (_ | l) <;>
      simp only [Branch.cmp, h] <;>
      first
        | exact hrefl a.get
        | exact bytesCmp_refl l
  · intro a b
    rcases ha : nameOf a.get with e | (_ | l) <;>
      rcases hb : nameOf b.get with f | (_ | r) <;>
      simp only [Branch.cmp, ha, hb] <;>
      first
        | rfl
        | exact bytesCmp_swap l r
        | exact hswap a.get b.get
  · intro a b c hab hbc
    rcases ha : nameOf a.get with e | (_ | l) <;>
      rcases hb : nameOf b.get with f | (_ | m) <;>
      rcases hc : nameOf c.get with g | (_ | r) <;>
      simp only [Branch.cmp, ha, hb, hc] at hab hbc ⊢ <;>
      first
        | rfl
        | exact absurd hab (by decide)
        | exact absurd hbc (by decide)
        | exact htrans a.get b.get c.get hab hbc
        | exact bytesCmp_lt_trans hab hbc
  · intro a b
    rfl
  · intro a b ha hb
    refine ⟨?_, ?_, ?_⟩
    · simp only [Branch.cmp, ha, hb]
      decide
    · simp only [Branch.cmp, hb, ha]
      decide
    · simp only [Branch.cmp, ha]
      exact bytesCmp_refl _

/-- Witness for C3: over `Bool` references ordered by `byteCmp` on
their numeric images (a total order, checked by `decide`), a branch
compares `Equal` to itself. -/
theorem branch_cmp_total_order_witness :
    Branch.cmp (fun b => if b then Except.ok (some [102, 111, 111]) else Except.error 0)
      (fun x y => byteCmp (cond x 1 0) (cond y 1 0))
      (Branch.wrap true) (Branch.wrap true) = Ordering.eq :=
  (branch_cmp_total_order _ _ (by decide) (by decide) (by decide)).1 (Branch.wrap true)

/-- C6: one `Branches::next()` step yields exactly one of the three
shapes: `Some(Ok((Branch, BranchType)))` wrapping the returned
reference and the store-reported kind on a valid entry, `None` at the
store's end signal, `Some(Err(e))` on a store failure — and, given the
store only reports valid kind tags, never anything else. -/
theorem branches_next_shapes {ρ : Type} (resp : StoreNext ρ) :
    (resp = .over → branchesNext resp = .done) ∧
    (∀ e, resp = .failure e → branchesNext resp = .fail e) ∧
    (∀ r, resp = .entry r GIT_BRANCH_LOCAL →
      branchesNext resp = .yield (Branch.wrap r) .local) ∧
    (∀ r, resp = .entry r GIT_BRANCH_REMOTE →
      branchesNext resp = .yield (Branch.wrap r) .remote) ∧
    ((∀ r tag, resp = .entry r tag →
        tag = GIT_BRANCH_LOCAL ∨ tag = GIT_BRANCH_REMOTE) →
      branchesNext resp ≠ .panicked) := by
  refine ⟨?_, ?_, ?_, ?_, ?_⟩
  · rintro rfl
    rfl
  · rintro e rfl
    rfl
  · rintro r rfl
    rfl
  · rintro r rfl
    rfl
  · intro hv
    cases resp with
    | over => simp [branchesNext]
    | failure e => simp [branchesNext]
    | entry r tag =>
      rcases hv r tag rfl with h | h <;> subst h <;>
        simp [branchesNext, GIT_BRANCH_LOCAL, GIT_BRANCH_REMOTE]

/-- Witness for C6: a valid entry with the remote tag yields the
wrapped reference tagged `Remote`. -/
theorem branches_next_shapes_witness :
    branchesNext (StoreNext.entry (5 : Nat) GIT_BRANCH_REMOTE)
      = NextOutcome.yield (Branch.wrap 5) BranchType.remote :=
  (branches_next_shapes _).2.2.2.1 5 rfl

/-- C7: a successful advance whose kind tag is neither
`GIT_BRANCH_LOCAL` nor `GIT_BRANCH_REMOTE` makes `next()` panic
(no `Ok`, no `Err`); under the precondition that the store only
reports those two tags, every successful step carries a `BranchType`
in `{Local, Remote}`. -/
theorem branches_next_tag_contract (ρ : Type) :
    (∀ (r : ρ) tag, tag ≠ GIT_BRANCH_LOCAL → tag ≠ GIT_BRANCH_REMOTE →
      branchesNext (StoreNext.entry r tag) = NextOutcome.panicked) ∧
    (∀ (r : ρ) tag, tag = GIT_BRANCH_LOCAL ∨ tag = GIT_BRANCH_REMOTE →
      ∃ t, branchesNext (StoreNext.entry r tag)
          = NextOutcome.yield (Branch.wrap r) t ∧
        (t = BranchType.local ∨ t = BranchType.remote)) := by
  constructor
  · intro r tag h1 h2
    simp [branchesNext, h1, h2]
  · rintro r tag (rfl | rfl)
    · exact ⟨.local, by simp [branchesNext, GIT_BRANCH_LOCAL], Or.inl rfl⟩
    · exact ⟨.remote,
        by simp [branchesNext, GIT_BRANCH_LOCAL, GIT_BRANCH_REMOTE], Or.inr rfl⟩

/-- Witness for C7: the out-of-contract tag 3 (`GIT_BRANCH_ALL`)
makes the step panic. -/
theorem branches_next_tag_contract_witness :
    branchesNext (StoreNext.entry (0 : Nat) 3) = NextOutcome.panicked :=
  (branches_next_tag_contract Nat).1 0 3 (by decide) (by decide)

/-- C8: `is_head()` is a plain boolean: true exactly when the
collaborator query answers 1, and false on every other answer,
error codes included. -/
theorem is_head_contract :
    (∀ q : Int, Branch.is_head q = true ↔ q = 1) ∧
    (∀ q : Int, q ≠ 1 → Branch.is_head q = false) := by
  constructor
  · intro q
    simp [Branch.is_head]
  · intro q h
    simp [Branch.is_head, h]

/-- Witness for C8: the error answer -3 degrades to `false`. -/
theorem is_head_contract_witness : Branch.is_head (-3) = false :=
  is_head_contract.2 (-3) (by decide)

/-- C9: however many `next()` calls a `Branches` value served before
being dropped, its lifetime store-call trace holds exactly one
release call (and one advance per `next()`). -/
theorem branches_release_once (n : Nat) :
    (branchesLifetimeCalls n).count BrCall.release = 1 ∧
    (branchesLifetimeCalls n).count BrCall.advance = n := by
  induction n with
  | zero => exact ⟨by decide, by decide⟩
  | succ m ih =>
    obtain ⟨h1, h2⟩ := ih
    have hs : branchesLifetimeCalls (m + 1)
        = BrCall.advance :: branchesLifetimeCalls m := by
      simp [branchesLifetimeCalls, nextStepCalls, List.replicate_succ]
    rw [hs]
    constructor
    · simpa [List.count_cons] using h1
    · simp [List.count_cons, h2]

/-- C10: wrapping is a lossless, effect-free round trip:
`into_reference (wrap r) = r`, `get (wrap r) = r`, and wrapping the
reference taken out of a branch gives back the branch. -/
theorem wrap_get_into_reference_roundtrip (ρ : Type) (r : ρ) :
    Branch.into_reference (Branch.wrap r) = r ∧
    Branch.get (Branch.wrap r) = r ∧
    (∀ b : Branch ρ, Branch.wrap (Branch.into_reference b) = b) :=
  ⟨rfl, rfl, fun _ => rfl⟩

end Git2
